import Mathlib

/-!
Verification development for the treelock library (treelock.go).

The library provides a hierarchical lock tree.  Paths are ordered lists of
string segments.  Each tree node (Go struct TreeLock) carries:
  - totalLock : an exclusive lock ("gate") held for whole-subtree locks,
  - totalwg   : a counting barrier ("activeCount") of sessions below the node,
  - locks     : a lazily built map from segment to child node,
  - locksLock : a guard protecting lazy creation in that map,
  - val, parent, depth : the node's segment label, stored parent pointer and depth.

We give a shallow embedding of the sequential state semantics of the
operations (machine integers are Nat; Go panics are an explicit error result;
indefinite blocking of a single sequential execution is an explicit "stuck"
result), plus two small interleaving models for the concurrency claims
(quiescence of the gate, and non-interference of non-overlapping paths).
All definitions are translated from treelock.go; default generator behavior
(new sync.Mutex = free lock, new sync.WaitGroup = zero counter) is assumed,
as produced by the default MutexGenerator / WaitGroupGenerator.
-/

set_option maxHeartbeats 1000000

/-- A path segment (Go string). -/
abbrev Seg := String

/-- A hierarchical path: ordered list of segments (Go []string). -/
abbrev TPath := List String

/-- Go string comparison on individual characters: byte-wise comparison of the
UTF-8 encoding coincides with comparison of unicode code points, modelled on
Char.toNat. -/
def charLt (a b : Char) : Bool := decide (a.toNat < b.toNat)

/-- Generic strict lexicographic comparison of lists given a strict
comparison of elements.  Used at two levels: characters within a string
(Go `<` on string), and segments within a path (Sorter.Less). -/
def lexGen (ltb : α → α → Bool) : List α → List α → Bool
  | [], [] => false
  | [], _ :: _ => true
  | _ :: _, [] => false
  | a :: as, b :: bs =>
    if ltb a b then true else if ltb b a then false else lexGen ltb as bs

/-- Go `a < b` on strings: byte-wise lexicographic comparison. -/
def segLt (a b : String) : Bool := lexGen charLt a.data b.data

/-- Result of a sequential execution of one library call:
`ok` = the call returns, with the final state;
`panicked` = the call aborts with a Go runtime panic (unlock of an unlocked
mutex, negative WaitGroup counter, or nil dereference);
`stuck` = the call blocks forever (no other thread exists in a sequential
execution to release what it is waiting for). -/
inductive Res (α : Type) where
  | ok : α → Res α
  | panicked : Res α
  | stuck : Res α
deriving DecidableEq

/-- True precisely when the call returned normally. -/
def Res.isOk : Res α → Bool
  | .ok _ => true
  | _ => false

/-- Atomic actions performed by TreeLock.Lock / Unlock, tagged with the path
of the node at which they occur (instrumentation label only).
`acqGate`/`relGate` are totalLock.Lock()/Unlock(); `acqGuard`/`relGuard` are
locksLock.Lock()/Unlock(); `create loc s arg` is the double-checked creation
of child `s`, where `arg` is the argument passed to both MutexGenerator and
WaitGroupGenerator by newTreeLock; `reuse` is the lookup finding an existing
child; `add`/`doneWg` are totalwg.Add(1)/Done(); `waitZero` is totalwg.Wait()
returning. -/
inductive Ev where
  | acqGate : TPath → Ev
  | relGate : TPath → Ev
  | acqGuard : TPath → Ev
  | relGuard : TPath → Ev
  | create : TPath → Seg → TPath → Ev
  | reuse : TPath → Seg → Ev
  | add : TPath → Ev
  | doneWg : TPath → Ev
  | waitZero : TPath → Ev
deriving DecidableEq

/-- The Go struct TreeLock: totalLock (held or free), totalwg counter, the
children map (association list), val, the stored parent pointer, and depth.
The default MutexGenerator yields a free mutex and the default
WaitGroupGenerator a zero counter, so a node's lock state is Bool/Nat. -/
inductive TL where
  | mk : Bool → Nat → List (Seg × TL) → Seg → Option TL → Nat → TL

/-- totalLock state of a node (true = held). -/
def TL.gateOf : TL → Bool
  | .mk g _ _ _ _ _ => g

/-- totalwg counter of a node. -/
def TL.wgOf : TL → Nat
  | .mk _ w _ _ _ _ => w

/-- children map of a node. -/
def TL.locksOf : TL → List (Seg × TL)
  | .mk _ _ l _ _ _ => l

/-- val field of a node. -/
def TL.valOf : TL → Seg
  | .mk _ _ _ v _ _ => v

/-- stored parent pointer of a node. -/
def TL.parentOf : TL → Option TL
  | .mk _ _ _ _ p _ => p

/-- depth field of a node. -/
def TL.depthOf : TL → Nat
  | .mk _ _ _ _ _ d => d

/-- Go map lookup `T.locks[s]`. -/
def lookupChild (s : Seg) : List (Seg × TL) → Option TL
  | [] => none
  | (k, c) :: r => if k = s then some c else lookupChild s r

/-- Go map store `T.locks[s] = c`. -/
def setChild (s : Seg) (c : TL) : List (Seg × TL) → List (Seg × TL)
  | [] => [(s, c)]
  | (k, c0) :: r => if k = s then (s, c) :: r else (k, c0) :: setChild s c r

/-- The loop in newTreeLock that builds the `path` argument handed to the
generators:
  i := depth - 1; pt := parent
  for pt.parent != nil && i >= 0 { path[i] = pt.val; i--; pt = pt.parent }
The Nat option encodes the Go int index i, `none` standing for i < 0. -/
def buildPathGo : TL → Option Nat → List Seg → List Seg
  | .mk _ _ _ v (some pp) _, some i, path =>
    buildPathGo pp (if i = 0 then none else some (i - 1)) (path.set i v)
  | _, _, path => path

/-- newTreeLock(val, parent, depth): computes the generator argument with
buildPathGo starting from `List.replicate depth ""` (make([]string, depth)),
then returns the new node.  Both MutexGenerator and WaitGroupGenerator
receive that same computed argument (returned as the second component); the
defaults produce a free mutex and a zero counter.  Note the struct literal
stores `nil` as the new node's parent field, exactly as in the source. -/
def newTreeLock (val : Seg) (parent : TL) (depth : Nat) : TL × TPath :=
  let path := buildPathGo parent (if depth = 0 then none else some (depth - 1))
      (List.replicate depth "")
  (.mk false 0 [] val none depth, path)

/-- NewTreeLock(): the root node, with generators called on the empty path. -/
def freshTL : TL := .mk false 0 [] "" none 0

/-- TreeLock.Lock(val), sequential semantics, instrumented with the list of
atomic actions performed.  `loc` is the instrumentation label (the path of
the receiver node); it influences only the event labels.
Source order per level: totalLock.Lock(); locksLock.Lock(); double-checked
get-or-create of locks[val[0]]; locksLock.Unlock(); totalwg.Add(1);
totalLock.Unlock(); recursive Lock(val[1:]) on the child.
Lock([]) delegates to LockAll() = totalLock.Lock(); totalwg.Wait(). -/
def treeLock : TPath → TL → TPath → Res (TL × List Ev)
  | loc, .mk g wg lks v pr d, [] =>
    if g then .stuck
    else if wg = 0 then .ok (.mk true wg lks v pr d, [.acqGate loc, .waitZero loc])
    else .stuck
  | loc, .mk g wg lks v pr d, s :: rest =>
    if g then .stuck
    else
      match lookupChild s lks with
      | some c =>
        match treeLock (loc ++ [s]) c rest with
        | .ok (c2, tail) =>
          .ok (.mk g (wg + 1) (setChild s c2 lks) v pr d,
            [.acqGate loc, .acqGuard loc, .reuse loc s, .relGuard loc,
             .add loc, .relGate loc] ++ tail)
        | .panicked => .panicked
        | .stuck => .stuck
      | none =>
        let nc := newTreeLock s (.mk g wg lks v pr d) (d + 1)
        match treeLock (loc ++ [s]) nc.1 rest with
        | .ok (c2, tail) =>
          .ok (.mk g (wg + 1) (setChild s c2 lks) v pr d,
            [.acqGate loc, .acqGuard loc, .create loc s nc.2, .relGuard loc,
             .add loc, .relGate loc] ++ tail)
        | .panicked => .panicked
        | .stuck => .stuck

/-- TreeLock.Unlock(val), sequential semantics.
Source order per level: totalwg.Done() (panics if the counter is zero);
locksLock.Lock(); read locks[val[0]]; locksLock.Unlock(); recursive
Unlock(val[1:]) on the child (a missing child is a nil pointer and panics).
Unlock([]) delegates to UnlockAll() = totalLock.Unlock(), which panics when
the mutex is not held. -/
def treeUnlock : TPath → TL → TPath → Res (TL × List Ev)
  | loc, .mk g wg lks v pr d, [] =>
    if g then .ok (.mk false wg lks v pr d, [.relGate loc]) else .panicked
  | loc, .mk g wg lks v pr d, s :: rest =>
    if wg = 0 then .panicked
    else
      match lookupChild s lks with
      | none => .panicked
      | some c =>
        match treeUnlock (loc ++ [s]) c rest with
        | .ok (c2, tail) =>
          .ok (.mk g (wg - 1) (setChild s c2 lks) v pr d, .doneWg loc :: tail)
        | .panicked => .panicked
        | .stuck => .stuck

/-- Body of the Sorter.Less loop, with the remaining iteration count
`m - k` passed as structural fuel: fuel zero is exactly the exit condition
`k >= m` of the loop
  for k := 0; k < m; k++ {
    if S[i][k] < S[j][k] { return true } else if S[i][k] > S[j][k] { return false }
  }
  return s -/
def sorterGo (x y : List Seg) (s : Bool) : Nat → Nat → Bool
  | 0, _ => s
  | fuel + 1, k =>
    if segLt (x.getD k "") (y.getD k "") then true
    else if segLt (y.getD k "") (x.getD k "") then false
    else sorterGo x y s fuel (k + 1)

/-- The Sorter.Less loop from index k with bound m. -/
def sorterLoop (x y : List Seg) (s : Bool) (m : Nat) (k : Nat) : Bool :=
  sorterGo x y s (m - k) k

/-- Sorter.Less(i, j) on the two paths x = S[i], y = S[j]:
  s := len(x) < len(y); m := len(y); if s { m = len(x) }; loop; return s. -/
def sorterLess (x y : TPath) : Bool :=
  let s := decide (x.length < y.length)
  let m := if s then x.length else y.length
  sorterLoop x y s m 0

/-- Stable insertion used to model Go's sorts.  An element is inserted after
every earlier element that is not strictly greater, which is a stable sort.
Since the orders used are antisymmetric (elements equal under the order are
equal), the output equals that of any correct sort, in particular Go's
sort.SliceStable (TreeLock) and sort.Strings (SimpleTreeLock). -/
def insertBy (less : α → α → Bool) (x : α) : List α → List α
  | [] => [x]
  | y :: l => if less y x then y :: insertBy less x l else x :: y :: l

/-- Sorting by repeated insertion; models sort.SliceStable / sort.Strings. -/
def sortBy (less : α → α → Bool) : List α → List α
  | [] => []
  | x :: l => insertBy less x (sortBy less l)

/-- Sequentially run T.Lock(val) for each path in the given (already sorted)
order, as the loop body of LockMany does. -/
def treeLockRun (t : TL) (vals : List TPath) : Res (TL × List Ev) :=
  match vals with
  | [] => .ok (t, [])
  | v :: r =>
    match treeLock [] t v with
    | .ok (t1, e1) =>
      match treeLockRun t1 r with
      | .ok (t2, e2) => .ok (t2, e1 ++ e2)
      | .panicked => .panicked
      | .stuck => .stuck
    | .panicked => .panicked
    | .stuck => .stuck

/-- Sequentially run T.Unlock(val) for each path in the given order, as the
downward loop of UnlockMany does (the caller passes the reversed slice). -/
def treeUnlockRun (t : TL) (vals : List TPath) : Res (TL × List Ev) :=
  match vals with
  | [] => .ok (t, [])
  | v :: r =>
    match treeUnlock [] t v with
    | .ok (t1, e1) =>
      match treeUnlockRun t1 r with
      | .ok (t2, e2) => .ok (t2, e1 ++ e2)
      | .panicked => .panicked
      | .stuck => .stuck
    | .panicked => .panicked
    | .stuck => .stuck

/-- TreeLock.LockMany(vals...): sort.SliceStable(vals, Sorter(vals).Less)
sorts the caller's slice in place, then each path is locked in that order.
The first component models the caller-visible contents of the argument slice
after the call (the in-place sort); the second is the execution result. -/
def treeLockMany (t : TL) (vals : List TPath) : List TPath × Res (TL × List Ev) :=
  let sorted := sortBy sorterLess vals
  (sorted, treeLockRun t sorted)

/-- TreeLock.UnlockMany(vals...): sorts the caller's slice in place
identically to LockMany, then unlocks in exact reverse order. -/
def treeUnlockMany (t : TL) (vals : List TPath) : List TPath × Res (TL × List Ev) :=
  let sorted := sortBy sorterLess vals
  (sorted, treeUnlockRun t sorted.reverse)

/-- The Go struct SimpleTreeLock: totalLock, totalwg, and the map from
segment to a per-segment mutex (true = held). -/
structure STL where
  gate : Bool
  wg : Nat
  locks : List (Seg × Bool)
deriving DecidableEq

/-- Go map lookup in the SimpleTreeLock lock table. -/
def lookupB (s : Seg) : List (Seg × Bool) → Option Bool
  | [] => none
  | (k, b) :: r => if k = s then some b else lookupB s r

/-- Go map store in the SimpleTreeLock lock table. -/
def setB (s : Seg) (b : Bool) : List (Seg × Bool) → List (Seg × Bool)
  | [] => [(s, b)]
  | (k, b0) :: r => if k = s then (s, b) :: r else (k, b0) :: setB s b r

/-- Double-checked creation `if _, ok := T.locks[val]; !ok { T.locks[val] =
MutexGenerator([]string{val}) }`: the default generator returns a free mutex. -/
def ensureB (s : Seg) (l : List (Seg × Bool)) : List (Seg × Bool) :=
  match lookupB s l with
  | some _ => l
  | none => setB s false l

/-- NewSimpleTreeLock() with the default generators. -/
def freshSTL : STL := ⟨false, 0, []⟩

/-- SimpleTreeLock.Lock(val): totalLock.Lock(); get-or-create locks[val];
totalwg.Add(1); read the entry; totalLock.Unlock(); entry.Lock(). -/
def simpleLock (t : STL) (v : Seg) : Res STL :=
  if t.gate then .stuck
  else
    let lks := ensureB v t.locks
    match lookupB v lks with
    | some true => .stuck
    | some false => .ok ⟨false, t.wg + 1, setB v true lks⟩
    | none => .panicked

/-- SimpleTreeLock.Unlock(val): totalwg.Done() (panics on zero counter);
totalLock.Lock(); read locks[val]; totalLock.Unlock(); entry.Unlock() (a
missing entry is a nil Locker and panics; an unheld mutex panics). -/
def simpleUnlock (t : STL) (v : Seg) : Res STL :=
  if t.wg = 0 then .panicked
  else if t.gate then .stuck
  else
    match lookupB v t.locks with
    | none => .panicked
    | some false => .panicked
    | some true => .ok ⟨false, t.wg - 1, setB v false t.locks⟩

/-- The creation loop of SimpleTreeLock.LockMany under totalLock. -/
def ensureAll : List Seg → List (Seg × Bool) → List (Seg × Bool)
  | [], l => l
  | v :: r, l => ensureAll r (ensureB v l)

/-- The acquisition loop of SimpleTreeLock.LockMany after totalLock.Unlock():
each collected entry is locked in sorted order; a held entry blocks. -/
def acquireAll : List Seg → List (Seg × Bool) → Res (List (Seg × Bool))
  | [], l => .ok l
  | v :: r, l =>
    match lookupB v l with
    | some true => .stuck
    | some false => acquireAll r (setB v true l)
    | none => .panicked

/-- SimpleTreeLock.LockMany(vals...): sort.Strings(vals) sorts the caller's
slice in place (first component); then, under totalLock, all missing entries
are created and totalwg.Add(len(vals)) runs; after totalLock.Unlock() every
entry is locked in sorted order. -/
def simpleLockMany (t : STL) (vals : List Seg) : List Seg × Res STL :=
  let sorted := sortBy segLt vals
  (sorted,
    if t.gate then .stuck
    else
      let lks := ensureAll sorted t.locks
      match acquireAll sorted lks with
      | .ok lks2 => .ok ⟨false, t.wg + sorted.length, lks2⟩
      | .panicked => .panicked
      | .stuck => .stuck)

/-- The first loop of SimpleTreeLock.UnlockMany, run under totalLock over the
reversed sorted slice: `T.locks[vals[i]].Unlock(); T.totalwg.Done()` for i
from len-1 down to 0.  A missing or unheld entry panics; Done() panics on a
zero counter. -/
def releaseRev : List Seg → List (Seg × Bool) → Nat → Res (List (Seg × Bool) × Nat)
  | [], l, w => .ok (l, w)
  | v :: r, l, w =>
    match lookupB v l with
    | none => .panicked
    | some false => .panicked
    | some true =>
      if w = 0 then .panicked
      else releaseRev r (setB v false l) (w - 1)

/-- The second loop of SimpleTreeLock.UnlockMany, run after totalLock.Unlock()
over the collected entries in forward sorted order: `lock.Unlock()` for each. -/
def releaseFwd : List Seg → List (Seg × Bool) → Res (List (Seg × Bool))
  | [], l => .ok l
  | v :: r, l =>
    match lookupB v l with
    | none => .panicked
    | some false => .panicked
    | some true => releaseFwd r (setB v false l)

/-- SimpleTreeLock.UnlockMany(vals...): sort.Strings(vals) sorts the caller's
slice in place (first component); then, under totalLock, the reverse loop
unlocks every entry and decrements totalwg, the entries are collected, and
after totalLock.Unlock() the forward loop unlocks every entry again. -/
def simpleUnlockMany (t : STL) (vals : List Seg) : List Seg × Res STL :=
  let sorted := sortBy segLt vals
  (sorted,
    if t.gate then .stuck
    else
      match releaseRev sorted.reverse t.locks t.wg with
      | .ok (l1, w1) =>
        match releaseFwd sorted l1 with
        | .ok l2 => .ok ⟨false, w1, l2⟩
        | .panicked => .panicked
        | .stuck => .stuck
      | .panicked => .panicked
      | .stuck => .stuck)

/-- SimpleTreeLock.LockAll(): totalLock.Lock(); totalwg.Wait(). -/
def simpleLockAll (t : STL) : Res STL :=
  if t.gate then .stuck
  else if t.wg = 0 then .ok ⟨true, t.wg, t.locks⟩
  else .stuck

/-- SimpleTreeLock.UnlockAll(): totalLock.Unlock(); panics if not held. -/
def simpleUnlockAll (t : STL) : Res STL :=
  if t.gate then .ok ⟨false, t.wg, t.locks⟩ else .panicked

/-- The node reached by following a path through the children maps. -/
def nodeAt : TL → TPath → Option TL
  | t, [] => some t
  | t, s :: r =>
    match lookupChild s t.locksOf with
    | some c => nodeAt c r
    | none => none

/-- Active-session counter of the node at a path (0 for a missing node:
a node that was never created has never had a session). -/
def countAt (t : TL) (q : TPath) : Nat :=
  match nodeAt t q with
  | some n => n.wgOf
  | none => 0

/-- Gate (totalLock) state of the node at a path (free for a missing node). -/
def gateAt (t : TL) (q : TPath) : Bool :=
  match nodeAt t q with
  | some n => n.gateOf
  | none => false

/-- Events of a run, empty for a run that panicked or blocked. -/
def evsOf : Res (TL × List Ev) → List Ev
  | .ok (_, e) => e
  | _ => []

/-- Final state of a run, with a default for a run that panicked or blocked. -/
def stOf (r : Res (TL × List Ev)) (dflt : TL) : TL :=
  match r with
  | .ok (t, _) => t
  | _ => dflt

/-- The arguments passed to MutexGenerator / WaitGroupGenerator by the node
creations occurring in a list of events, in order. -/
def createArgs : List Ev → List TPath
  | [] => []
  | .create _ _ a :: r => a :: createArgs r
  | _ :: r => createArgs r

/-! Interleaving model of a single node's gate/counter protocol, for the
quiescence invariant.  Each thread interacting with one fixed node is in a
phase of the protocol induced by the source:

  TreeLock.Lock (per level):  totalLock.Lock()  -> lockHasGate
                              totalwg.Add(1)    -> lockAdded
                              totalLock.Unlock() -> lockDone (descends)
  TreeLock.Unlock:            totalwg.Done()    -> unlockFin (needs wg > 0;
                              Done on a zero counter panics, so no step)
  LockAll:                    totalLock.Lock()  -> allHasGate
                              totalwg.Wait() returns when wg = 0 -> allReady
  UnlockAll:                  totalLock.Unlock() -> allFin

The gate records which thread currently holds totalLock. -/

/-- Protocol phase of one thread at one node. -/
inductive Ph where
  | lockStart | lockHasGate | lockAdded | lockDone
  | unlockStart | unlockFin
  | allStart | allHasGate | allReady | allFin
deriving DecidableEq

/-- State of one node under concurrent access: the owner of totalLock (none =
free), the totalwg counter, and the phase of every thread. -/
structure NodeSt where
  gate : Option Nat
  wg : Nat
  ths : Nat → Ph

/-- One atomic action of one thread at the node, following the source order
of TreeLock.Lock / Unlock / LockAll / UnlockAll. -/
inductive NStep : NodeSt → NodeSt → Prop where
  | lockAcq (σ : NodeSt) (i : Nat) (h : σ.ths i = .lockStart) (hg : σ.gate = none) :
      NStep σ ⟨some i, σ.wg, Function.update σ.ths i .lockHasGate⟩
  | lockAdd (σ : NodeSt) (i : Nat) (h : σ.ths i = .lockHasGate) :
      NStep σ ⟨σ.gate, σ.wg + 1, Function.update σ.ths i .lockAdded⟩
  | lockRel (σ : NodeSt) (i : Nat) (h : σ.ths i = .lockAdded) :
      NStep σ ⟨none, σ.wg, Function.update σ.ths i .lockDone⟩
  | unlockStep (σ : NodeSt) (i : Nat) (h : σ.ths i = .unlockStart) (hw : σ.wg ≠ 0) :
      NStep σ ⟨σ.gate, σ.wg - 1, Function.update σ.ths i .unlockFin⟩
  | allAcq (σ : NodeSt) (i : Nat) (h : σ.ths i = .allStart) (hg : σ.gate = none) :
      NStep σ ⟨some i, σ.wg, Function.update σ.ths i .allHasGate⟩
  | allWait (σ : NodeSt) (i : Nat) (h : σ.ths i = .allHasGate) (hw : σ.wg = 0) :
      NStep σ ⟨σ.gate, σ.wg, Function.update σ.ths i .allReady⟩
  | allRel (σ : NodeSt) (i : Nat) (h : σ.ths i = .allReady) :
      NStep σ ⟨none, σ.wg, Function.update σ.ths i .allFin⟩

/-- Phases in which the thread holds the node's totalLock. -/
def holdsGate : Ph → Bool
  | .lockHasGate => true
  | .lockAdded => true
  | .allHasGate => true
  | .allReady => true
  | _ => false

/-- Initial condition: the gate is free and no thread is mid-protocol. -/
def NInit (σ : NodeSt) : Prop :=
  σ.gate = none ∧ ∀ i, holdsGate (σ.ths i) = false

/-- Inductive invariant of the node protocol: a thread in a gate-holding
phase owns the gate, and a thread past totalwg.Wait() (holding the gate in
full mode) sees a zero counter. -/
def NInv (σ : NodeSt) : Prop :=
  (∀ i, holdsGate (σ.ths i) = true → σ.gate = some i) ∧
  (∀ i, σ.ths i = .allReady → σ.wg = 0)

/-! Interleaving model of two concurrent TreeLock.Lock calls on paths p and q,
for the non-interference claim.  Blocking behavior of a Lock depends only on
the gates (totalLock of each node) and counters (totalwg): per level, the
critical section totalLock.Lock() ... totalLock.Unlock() contains no blocking
operation (locksLock is only ever held transiently inside it), so it is one
atomic `descend` step guarded by the gate being free; the terminal Lock([])
is LockAll, one `finish` step guarded by the gate being free and the counter
zero.  Node state is kept as total functions from paths; lazy node creation
does not affect blocking (a fresh node has a free gate and zero counter,
matching the defaults). -/

/-- Gates and counters of the whole tree, keyed by node path. -/
structure LState where
  gates : TPath → Bool
  wgs : TPath → Nat

/-- Progress of one Lock call: number of consumed segments, or finished. -/
inductive TPos where
  | run : Nat → TPos
  | fin
deriving DecidableEq

/-- Combined state of the tree and the two Lock calls. -/
structure CState where
  st : LState
  a : TPos
  b : TPos

/-- One atomic step of either Lock(p) (thread A) or Lock(q) (thread B).
`descend` is one level of TreeLock.Lock: pass through the gate of the node at
the consumed prefix and increment its counter; `finish` is the terminal
LockAll: acquire the gate and return from totalwg.Wait(). -/
inductive CStep (p q : TPath) : CState → CState → Prop where
  | aDescend (σ : CState) (k : Nat) (ha : σ.a = .run k) (hk : k < p.length)
      (hg : σ.st.gates (p.take k) = false) :
      CStep p q σ ⟨⟨σ.st.gates,
        Function.update σ.st.wgs (p.take k) (σ.st.wgs (p.take k) + 1)⟩,
        .run (k + 1), σ.b⟩
  | aFinish (σ : CState) (ha : σ.a = .run p.length)
      (hg : σ.st.gates p = false) (hw : σ.st.wgs p = 0) :
      CStep p q σ ⟨⟨Function.update σ.st.gates p true, σ.st.wgs⟩, .fin, σ.b⟩
  | bDescend (σ : CState) (k : Nat) (hb : σ.b = .run k) (hk : k < q.length)
      (hg : σ.st.gates (q.take k) = false) :
      CStep p q σ ⟨⟨σ.st.gates,
        Function.update σ.st.wgs (q.take k) (σ.st.wgs (q.take k) + 1)⟩,
        σ.a, .run (k + 1)⟩
  | bFinish (σ : CState) (hb : σ.b = .run q.length)
      (hg : σ.st.gates q = false) (hw : σ.st.wgs q = 0) :
      CStep p q σ ⟨⟨Function.update σ.st.gates q true, σ.st.wgs⟩, σ.a, .fin⟩

/-- Quiescent initial state: all gates free, all counters zero, both Lock
calls at their first level. -/
def cInit : CState := ⟨⟨fun _ => false, fun _ => 0⟩, .run 0, .run 0⟩

/-- Thread A's next step is enabled (it does not have to wait). -/
def enabledA (p : TPath) (σ : CState) : Prop :=
  match σ.a with
  | .fin => True
  | .run k =>
    (k < p.length ∧ σ.st.gates (p.take k) = false) ∨
    (k = p.length ∧ σ.st.gates p = false ∧ σ.st.wgs p = 0)

/-- Thread B's next step is enabled (it does not have to wait). -/
def enabledB (q : TPath) (σ : CState) : Prop :=
  match σ.b with
  | .fin => True
  | .run k =>
    (k < q.length ∧ σ.st.gates (q.take k) = false) ∨
    (k = q.length ∧ σ.st.gates q = false ∧ σ.st.wgs q = 0)

/-- Inductive invariant for two Lock calls on prefix-incomparable paths:
gates held only at a finished call's own full path, and the counters at the
two full paths untouched. -/
def CInv (p q : TPath) (σ : CState) : Prop :=
  (∀ loc, σ.st.gates loc = true → (loc = p ∧ σ.a = .fin) ∨ (loc = q ∧ σ.b = .fin)) ∧
  σ.st.wgs p = 0 ∧ σ.st.wgs q = 0 ∧
  (∀ k, σ.a = .run k → k ≤ p.length) ∧
  (∀ k, σ.b = .run k → k ≤ q.length)

/-! Helper lemmas: association lists, the character / string / path orders,
and the bridge between the indexed Sorter.Less loop and structural
lexicographic comparison. -/

theorem lookupChild_setChild_self (s : Seg) (c : TL) (l : List (Seg × TL)) :
    lookupChild s (setChild s c l) = some c := by
  induction l with
  | nil => simp [setChild, lookupChild]
  | cons kv r ih =>
    obtain ⟨k, c0⟩ := kv
    by_cases h : k = s
    · subst h; simp [setChild, lookupChild]
    · simp [setChild, lookupChild, h, ih]

theorem lookupChild_setChild_ne (s s' : Seg) (c : TL) (l : List (Seg × TL))
    (h : s' ≠ s) : lookupChild s' (setChild s c l) = lookupChild s' l := by
  have hss : ¬ s = s' := fun hh => h hh.symm
  induction l with
  | nil => simp [setChild, lookupChild, hss]
  | cons kv r ih =>
    obtain ⟨k, c0⟩ := kv
    by_cases hk : k = s
    · subst hk
      simp [setChild, lookupChild, hss]
    · by_cases hk' : k = s'
      · subst hk'; simp [setChild, lookupChild, hk]
      · simp [setChild, lookupChild, hk, hk', ih]

theorem charLt_irr (a : Char) : charLt a a = false := by
  simp [charLt]

theorem charLt_asym (a b : Char) (h : charLt a b = true) : charLt b a = false := by
  simp only [charLt, Char.toNat, decide_eq_true_eq, decide_eq_false_iff_not] at *
  omega

theorem charLt_anti (a b : Char) (h1 : charLt a b = false) (h2 : charLt b a = false) :
    a = b := by
  simp only [charLt, Char.toNat, decide_eq_false_iff_not] at h1 h2
  exact Char.ext (UInt32.toNat.inj (by omega))

theorem charLt_trans (a b c : Char) (h1 : charLt a b = true) (h2 : charLt b c = true) :
    charLt a c = true := by
  simp only [charLt, Char.toNat, decide_eq_true_eq] at *
  omega

theorem lexGen_irr (ltb : α → α → Bool) (hirr : ∀ a, ltb a a = false) (l : List α) :
    lexGen ltb l l = false := by
  induction l with
  | nil => rfl
  | cons a as ih => simp [lexGen, hirr a, ih]

theorem lexGen_asym (ltb : α → α → Bool)
    (hasym : ∀ a b, ltb a b = true → ltb b a = false) :
    ∀ x y : List α, lexGen ltb x y = true → lexGen ltb y x = false := by
  intro x
  induction x with
  | nil =>
    intro y h
    cases y with
    | nil => simp [lexGen] at h
    | cons b bs => rfl
  | cons a as ih =>
    intro y h
    cases y with
    | nil => simp [lexGen] at h
    | cons b bs =>
      cases hab : ltb a b with
      | true =>
        simp [lexGen, hasym a b hab, hab]
      | false =>
        cases hba : ltb b a with
        | true => simp [lexGen, hab, hba] at h
        | false =>
          simp only [lexGen, hab, hba, if_false] at h
          simp [lexGen, hab, hba, ih bs h]

theorem lexGen_anti (ltb : α → α → Bool)
    (hanti : ∀ a b, ltb a b = false → ltb b a = false → a = b) :
    ∀ x y : List α, lexGen ltb x y = false → lexGen ltb y x = false → x = y := by
  intro x
  induction x with
  | nil =>
    intro y h1 _
    cases y with
    | nil => rfl
    | cons b bs => simp [lexGen] at h1
  | cons a as ih =>
    intro y h1 h2
    cases y with
    | nil => simp [lexGen] at h2
    | cons b bs =>
      cases hab : ltb a b with
      | true => simp [lexGen, hab] at h1
      | false =>
        cases hba : ltb b a with
        | true => simp [lexGen, hba] at h2
        | false =>
          simp only [lexGen, hab, hba, if_false] at h1 h2
          have := hanti a b hab hba
          subst this
          rw [ih bs h1 h2]

theorem lexGen_total (ltb : α → α → Bool)
    (hanti : ∀ a b, ltb a b = false → ltb b a = false → a = b)
    (x y : List α) (h : x ≠ y) :
    lexGen ltb x y = true ∨ lexGen ltb y x = true := by
  cases h1 : lexGen ltb x y with
  | true => exact Or.inl rfl
  | false =>
    cases h2 : lexGen ltb y x with
    | true => exact Or.inr rfl
    | false => exact absurd (lexGen_anti ltb hanti x y h1 h2) h

theorem lexGen_trans (ltb : α → α → Bool)
    (hanti : ∀ a b, ltb a b = false → ltb b a = false → a = b)
    (htr : ∀ a b c, ltb a b = true → ltb b c = true → ltb a c = true) :
    ∀ x y z : List α, lexGen ltb x y = true → lexGen ltb y z = true →
      lexGen ltb x z = true := by
  intro x
  induction x with
  | nil =>
    intro y z h1 h2
    cases y with
    | nil => simp [lexGen] at h1
    | cons b bs =>
      cases z with
      | nil => simp [lexGen] at h2
      | cons c cs => rfl
  | cons a as ih =>
    intro y z h1 h2
    cases y with
    | nil => simp [lexGen] at h1
    | cons b bs =>
      cases z with
      | nil => simp [lexGen] at h2
      | cons c cs =>
        cases hab : ltb a b with
        | true =>
          cases hbc : ltb b c with
          | true => simp [lexGen, htr a b c hab hbc]
          | false =>
            cases hcb : ltb c b with
            | true => simp [lexGen, hbc, hcb] at h2
            | false =>
              have : b = c := hanti b c hbc hcb
              subst this
              simp [lexGen, hab]
        | false =>
          cases hba : ltb b a with
          | true => simp [lexGen, hab, hba] at h1
          | false =>
            have : a = b := hanti a b hab hba
            subst this
            simp only [lexGen, hab, hba, if_false] at h1
            cases hbc : ltb a c with
            | true => simp [lexGen, hbc]
            | false =>
              cases hcb : ltb c a with
              | true => simp [lexGen, hbc, hcb] at h2
              | false =>
                simp only [lexGen, hbc, hcb, if_false] at h2 ⊢
                exact ih bs cs h1 h2

theorem segLt_irr (a : Seg) : segLt a a = false :=
  lexGen_irr charLt charLt_irr a.data

theorem segLt_asym (a b : Seg) (h : segLt a b = true) : segLt b a = false :=
  lexGen_asym charLt charLt_asym a.data b.data h

theorem segLt_anti (a b : Seg) (h1 : segLt a b = false) (h2 : segLt b a = false) :
    a = b := by
  have := lexGen_anti charLt charLt_anti a.data b.data h1 h2
  cases a; cases b; simp_all

theorem segLt_trans (a b c : Seg) (h1 : segLt a b = true) (h2 : segLt b c = true) :
    segLt a c = true :=
  lexGen_trans charLt charLt_anti charLt_trans a.data b.data c.data h1 h2

theorem sorterGo_shift (a b : Seg) (as bs : List Seg) (s : Bool) :
    ∀ n k, sorterGo (a :: as) (b :: bs) s n (k + 1) = sorterGo as bs s n k := by
  intro n
  induction n with
  | zero => intro k; rfl
  | succ n ih =>
    intro k
    simp only [sorterGo, List.getD_cons_succ]
    rw [ih (k + 1)]

theorem sorterLoop_shift (a b : Seg) (as bs : List Seg) (s : Bool) (m k : Nat) :
    sorterLoop (a :: as) (b :: bs) s (m + 1) (k + 1) = sorterLoop as bs s m k := by
  simp only [sorterLoop, Nat.succ_sub_succ]
  exact sorterGo_shift a b as bs s (m - k) k

theorem sorterLess_def (x y : TPath) :
    sorterLess x y = sorterLoop x y (decide (x.length < y.length))
      (if decide (x.length < y.length) then x.length else y.length) 0 := rfl

theorem sorterLess_eq_lexGen :
    ∀ x y : TPath, sorterLess x y = lexGen segLt x y := by
  intro x
  induction x with
  | nil =>
    intro y
    cases y with
    | nil => rfl
    | cons b bs =>
      rw [sorterLess_def]
      have h1 : decide (([] : TPath).length < (b :: bs).length) = true := by simp
      rw [h1, if_pos rfl]
      rfl
  | cons a as ih =>
    intro y
    cases y with
    | nil =>
      rw [sorterLess_def]
      have h1 : decide ((a :: as).length < ([] : TPath).length) = false := by simp
      rw [h1, if_neg (by simp)]
      rfl
    | cons b bs =>
      rw [sorterLess_def]
      have h1 : decide ((a :: as).length < (b :: bs).length)
          = decide (as.length < bs.length) := by simp
      rw [h1]
      have hm : (if decide (as.length < bs.length)
            then (a :: as).length else (b :: bs).length)
          = (if decide (as.length < bs.length) then as.length else bs.length) + 1 := by
        cases hd : decide (as.length < bs.length) <;> simp
      rw [hm]
      simp only [sorterLoop, Nat.sub_zero, sorterGo, List.getD_cons_zero]
      rw [sorterGo_shift a b as bs _ _ 0]
      show _ = lexGen segLt (a :: as) (b :: bs)
      rw [lexGen]
      have hrec : sorterGo as bs (decide (as.length < bs.length))
          (if decide (as.length < bs.length) then as.length else bs.length) 0
          = lexGen segLt as bs := by
        have := ih bs
        rw [sorterLess_def, sorterLoop, Nat.sub_zero] at this
        exact this
      rw [hrec]

theorem lexGen_iff_firstDiff (ltb : α → α → Bool) (dflt : α)
    (hirr : ∀ a, ltb a a = false)
    (hanti : ∀ a b, ltb a b = false → ltb b a = false → a = b) :
    ∀ x y : List α, lexGen ltb x y = true ↔
      ((∃ k, k < min x.length y.length ∧
          (∀ j, j < k → x.getD j dflt = y.getD j dflt) ∧
          ltb (x.getD k dflt) (y.getD k dflt) = true) ∨
        (x.length < y.length ∧ ∀ j, j < x.length → x.getD j dflt = y.getD j dflt)) := by
  intro x
  induction x with
  | nil =>
    intro y
    cases y with
    | nil => simp [lexGen]
    | cons b bs => simp [lexGen]
  | cons a as ih =>
    intro y
    cases y with
    | nil => simp [lexGen]
    | cons b bs =>
      constructor
      · intro h
        cases hab : ltb a b with
        | true =>
          exact Or.inl ⟨0, by simp only [List.length_cons]; omega,
            fun j hj => absurd hj (by omega), by simpa using hab⟩
        | false =>
          cases hba : ltb b a with
          | true => simp [lexGen, hab, hba] at h
          | false =>
            have heq : a = b := hanti a b hab hba
            subst heq
            simp only [lexGen, hab, hba, if_false] at h
            rcases (ih bs).mp h with ⟨k, hk, hpre, hlt⟩ | ⟨hlen, hpre⟩
            · refine Or.inl ⟨k + 1, by simp only [List.length_cons] at hk ⊢; omega,
                ?_, by simpa using hlt⟩
              intro j hj
              cases j with
              | zero => rfl
              | succ j => simpa using hpre j (by omega)
            · refine Or.inr ⟨by simpa using hlen, ?_⟩
              intro j hj
              cases j with
              | zero => rfl
              | succ j => simpa using hpre j (by simpa using hj)
      · intro h
        rcases h with ⟨k, hk, hpre, hlt⟩ | ⟨hlen, hpre⟩
        · cases k with
          | zero =>
            simp only [List.getD_cons_zero] at hlt
            simp [lexGen, hlt]
          | succ k =>
            have h0 : a = b := by simpa using hpre 0 (by omega)
            subst h0
            simp only [lexGen, hirr a, if_false]
            exact (ih bs).mpr (Or.inl ⟨k, by simp only [List.length_cons] at hk ⊢; omega,
              fun j hj => by simpa using hpre (j + 1) (by omega),
              by simpa using hlt⟩)
        · have h0 : a = b := by simpa using hpre 0 (by simp)
          subst h0
          simp only [lexGen, hirr a, if_false]
          exact (ih bs).mpr (Or.inr ⟨by simpa using hlen,
            fun j hj => by simpa using hpre (j + 1) (by simpa using hj)⟩)

theorem newTreeLock_fst (v : Seg) (pt : TL) (dep : Nat) :
    (newTreeLock v pt dep).1 = .mk false 0 [] v none dep := rfl

theorem countAt_nil (g : Bool) (w : Nat) (lks : List (Seg × TL)) (v : Seg)
    (pr : Option TL) (d : Nat) : countAt (.mk g w lks v pr d) [] = w := rfl

theorem gateAt_nil (g : Bool) (w : Nat) (lks : List (Seg × TL)) (v : Seg)
    (pr : Option TL) (d : Nat) : gateAt (.mk g w lks v pr d) [] = g := rfl

theorem countAt_cons (g : Bool) (w : Nat) (lks : List (Seg × TL)) (v : Seg)
    (pr : Option TL) (d : Nat) (s : Seg) (q : TPath) :
    countAt (.mk g w lks v pr d) (s :: q)
      = (match lookupChild s lks with
          | some c => countAt c q
          | none => 0) := by
  cases h : lookupChild s lks <;> simp [countAt, nodeAt, TL.locksOf, h]

theorem gateAt_cons (g : Bool) (w : Nat) (lks : List (Seg × TL)) (v : Seg)
    (pr : Option TL) (d : Nat) (s : Seg) (q : TPath) :
    gateAt (.mk g w lks v pr d) (s :: q)
      = (match lookupChild s lks with
          | some c => gateAt c q
          | none => false) := by
  cases h : lookupChild s lks <;> simp [gateAt, nodeAt, TL.locksOf, h]

theorem countAt_newNode (v : Seg) (pr : Option TL) (dep : Nat) (q : TPath) :
    countAt (.mk false 0 [] v pr dep) q = 0 := by
  cases q with
  | nil => rfl
  | cons s r => simp [countAt_cons, lookupChild]

theorem gateAt_newNode (v : Seg) (pr : Option TL) (dep : Nat) (q : TPath) :
    gateAt (.mk false 0 [] v pr dep) q = false := by
  cases q with
  | nil => rfl
  | cons s r => simp [gateAt_cons, lookupChild]

/-- Round trip at the heart of claims C6 and C7: whenever Lock(p) returns,
Unlock(p) on the resulting state returns and restores every node's counter
and gate state (new nodes created by the Lock remain, but idle, matching the
defaults used for absent nodes). -/
theorem treeRoundTrip :
    ∀ p loc (t t1 : TL) (e1 : List Ev), treeLock loc t p = .ok (t1, e1) →
      ∃ t2 e2, treeUnlock loc t1 p = .ok (t2, e2) ∧
        ∀ q, countAt t2 q = countAt t q ∧ gateAt t2 q = gateAt t q := by
  intro p
  induction p with
  | nil =>
    intro loc t t1 e1 h
    cases t with
    | mk g wg lks v pr d =>
      cases g with
      | true => simp [treeLock] at h
      | false =>
        cases hw : wg with
        | zero =>
          subst hw
          simp only [treeLock, if_false, Bool.false_eq_true, if_pos rfl,
            reduceIte] at h
          obtain ⟨h1, h2⟩ := Prod.mk.injEq .. ▸ Res.ok.inj h
          subst h1
          refine ⟨.mk false 0 lks v pr d, [.relGate loc], by simp [treeUnlock], ?_⟩
          intro q
          exact ⟨rfl, rfl⟩
        | succ n =>
          subst hw
          simp [treeLock] at h
  | cons s rest ih =>
    intro loc t t1 e1 h
    cases t with
    | mk g wg lks v pr d =>
      cases g with
      | true => simp [treeLock] at h
      | false =>
        simp only [treeLock, Bool.false_eq_true, if_false, reduceIte] at h
        cases hc : lookupChild s lks with
        | some c =>
          rw [hc] at h
          simp only at h
          cases hrec : treeLock (loc ++ [s]) c rest with
          | ok pair =>
            obtain ⟨c2, tail⟩ := pair
            rw [hrec] at h
            simp only at h
            obtain ⟨h1, h2⟩ := Prod.mk.injEq .. ▸ Res.ok.inj h
            subst h1
            obtain ⟨c3, e3, hu, hobs⟩ := ih (loc ++ [s]) c c2 tail hrec
            refine ⟨.mk false (wg + 1 - 1) (setChild s c3 (setChild s c2 lks)) v pr d,
              .doneWg loc :: e3, ?_, ?_⟩
            · simp [treeUnlock, lookupChild_setChild_self, hu]
            · intro q
              cases q with
              | nil =>
                constructor
                · simp [countAt_nil]
                · simp [gateAt_nil]
              | cons s' q' =>
                by_cases hs : s' = s
                · subst hs
                  rw [countAt_cons, gateAt_cons, countAt_cons, gateAt_cons,
                    lookupChild_setChild_self s' c3 (setChild s' c2 lks), hc]
                  exact ⟨(hobs q').1, (hobs q').2⟩
                · rw [countAt_cons, gateAt_cons, countAt_cons, gateAt_cons,
                    lookupChild_setChild_ne _ _ _ _ hs,
                    lookupChild_setChild_ne _ _ _ _ hs]
                  exact ⟨rfl, rfl⟩
          | panicked => rw [hrec] at h; simp at h
          | stuck => rw [hrec] at h; simp at h
        | none =>
          rw [hc] at h
          simp only [newTreeLock_fst] at h
          cases hrec : treeLock (loc ++ [s]) (.mk false 0 [] s none (d + 1)) rest with
          | ok pair =>
            obtain ⟨c2, tail⟩ := pair
            rw [hrec] at h
            simp only at h
            obtain ⟨h1, h2⟩ := Prod.mk.injEq .. ▸ Res.ok.inj h
            subst h1
            obtain ⟨c3, e3, hu, hobs⟩ :=
              ih (loc ++ [s]) (.mk false 0 [] s none (d + 1)) c2 tail hrec
            refine ⟨.mk false (wg + 1 - 1) (setChild s c3 (setChild s c2 lks)) v pr d,
              .doneWg loc :: e3, ?_, ?_⟩
            · simp [treeUnlock, lookupChild_setChild_self, hu]
            · intro q
              cases q with
              | nil =>
                constructor
                · simp [countAt_nil]
                · simp [gateAt_nil]
              | cons s' q' =>
                by_cases hs : s' = s
                · subst hs
                  rw [countAt_cons, gateAt_cons, countAt_cons, gateAt_cons,
                    lookupChild_setChild_self s' c3 (setChild s' c2 lks), hc]
                  exact ⟨((hobs q').1).trans (countAt_newNode s' none (d + 1) q'),
                    ((hobs q').2).trans (gateAt_newNode s' none (d + 1) q')⟩
                · rw [countAt_cons, gateAt_cons, countAt_cons, gateAt_cons,
                    lookupChild_setChild_ne _ _ _ _ hs,
                    lookupChild_setChild_ne _ _ _ _ hs]
                  exact ⟨rfl, rfl⟩
          | panicked => rw [hrec] at h; simp at h
          | stuck => rw [hrec] at h; simp at h

theorem insertBy_perm (less : α → α → Bool) (x : α) (l : List α) :
    (insertBy less x l).Perm (x :: l) := by
  induction l with
  | nil => exact List.Perm.refl _
  | cons y l ih =>
    cases h : less y x with
    | true =>
      simp only [insertBy, h, if_true]
      exact (ih.cons y).trans (List.Perm.swap x y l)
    | false =>
      simp only [insertBy, h, if_false]
      exact List.Perm.refl _

theorem sortBy_perm (less : α → α → Bool) (l : List α) : (sortBy less l).Perm l := by
  induction l with
  | nil => exact List.Perm.refl _
  | cons x l ih => exact (insertBy_perm less x (sortBy less l)).trans (ih.cons x)

theorem lessCo (less : α → α → Bool)
    (hanti : ∀ a b, less a b = false → less b a = false → a = b)
    (htr : ∀ a b c, less a b = true → less b c = true → less a c = true)
    (x y z : α) (h : less x z = true) : less x y = true ∨ less y z = true := by
  cases hxy : less x y with
  | true => exact Or.inl rfl
  | false =>
    cases hyx : less y x with
    | true => exact Or.inr (htr y x z hyx h)
    | false =>
      have := hanti x y hxy hyx
      subst this
      exact Or.inr h

theorem insertBy_pairwise (less : α → α → Bool)
    (hasym : ∀ a b, less a b = true → less b a = false)
    (hanti : ∀ a b, less a b = false → less b a = false → a = b)
    (htr : ∀ a b c, less a b = true → less b c = true → less a c = true)
    (x : α) : ∀ l, List.Pairwise (fun a b => less b a = false) l →
      List.Pairwise (fun a b => less b a = false) (insertBy less x l) := by
  intro l
  induction l with
  | nil =>
    intro _
    exact List.pairwise_singleton _ _
  | cons y l ih =>
    intro hp
    rcases List.pairwise_cons.mp hp with ⟨hy, hl⟩
    cases hyx : less y x with
    | true =>
      simp only [insertBy, hyx, if_true]
      refine List.pairwise_cons.mpr ⟨?_, ih hl⟩
      intro z hz
      rcases List.mem_cons.mp ((insertBy_perm less x l).mem_iff.mp hz) with rfl | hzl
      · exact hasym y z hyx
      · exact hy z hzl
    | false =>
      simp only [insertBy, hyx, if_false]
      refine List.pairwise_cons.mpr ⟨?_, hp⟩
      intro z hz
      rcases List.mem_cons.mp hz with rfl | hzl
      · exact hyx
      · cases hzx : less z x with
        | false => rfl
        | true =>
          rcases lessCo less hanti htr z y x hzx with hzy | hyx2
          · rw [hy z hzl] at hzy
            exact absurd hzy (by simp)
          · rw [hyx] at hyx2
            exact absurd hyx2 (by simp)

theorem sortBy_pairwise (less : α → α → Bool)
    (hasym : ∀ a b, less a b = true → less b a = false)
    (hanti : ∀ a b, less a b = false → less b a = false → a = b)
    (htr : ∀ a b c, less a b = true → less b c = true → less a c = true) :
    ∀ l : List α, List.Pairwise (fun a b => less b a = false) (sortBy less l) := by
  intro l
  induction l with
  | nil => exact List.Pairwise.nil
  | cons x l ih => exact insertBy_pairwise less hasym hanti htr x (sortBy less l) ih

theorem sorterLess_asym (x y : TPath) (h : sorterLess x y = true) :
    sorterLess y x = false := by
  rw [sorterLess_eq_lexGen] at h ⊢
  exact lexGen_asym segLt segLt_asym x y h

theorem sorterLess_anti (x y : TPath) (h1 : sorterLess x y = false)
    (h2 : sorterLess y x = false) : x = y := by
  rw [sorterLess_eq_lexGen] at h1 h2
  exact lexGen_anti segLt segLt_anti x y h1 h2

theorem sorterLess_trans (x y z : TPath) (h1 : sorterLess x y = true)
    (h2 : sorterLess y z = true) : sorterLess x z = true := by
  rw [sorterLess_eq_lexGen] at h1 h2 ⊢
  exact lexGen_trans segLt segLt_anti segLt_trans x y z h1 h2

theorem sorterLess_irr (x : TPath) : sorterLess x x = false := by
  rw [sorterLess_eq_lexGen]
  exact lexGen_irr segLt segLt_irr x

theorem nodeInv_init (σ : NodeSt) (h : NInit σ) : NInv σ := by
  obtain ⟨hg, hth⟩ := h
  constructor
  · intro i hi
    rw [hth i] at hi
    exact absurd hi (by simp)
  · intro i hi
    have := hth i
    rw [hi] at this
    simp [holdsGate] at this

theorem nodeInv_step (σ σ' : NodeSt) (hs : NStep σ σ') (hi : NInv σ) : NInv σ' := by
  obtain ⟨hg, hr⟩ := hi
  cases hs with
  | lockAcq i h hgate =>
    constructor
    · intro j hj
      by_cases hij : j = i
      · subst hij; rfl
      · simp only [Function.update_noteq hij] at hj
        have := hg j hj
        rw [hgate] at this
        exact absurd this (by simp)
    · intro j hj
      by_cases hij : j = i
      · subst hij
        simp only [Function.update_same] at hj
        exact absurd hj (by simp)
      · simp only [Function.update_noteq hij] at hj
        exact hr j hj
  | lockAdd i h =>
    constructor
    · intro j hj
      by_cases hij : j = i
      · subst hij
        exact hg j (by rw [h]; rfl)
      · simp only [Function.update_noteq hij] at hj
        exact hg j hj
    · intro j hj
      by_cases hij : j = i
      · subst hij
        simp only [Function.update_same] at hj
        exact absurd hj (by simp)
      · simp only [Function.update_noteq hij] at hj
        have e1 := hg j (by rw [hj]; rfl)
        have e2 := hg i (by rw [h]; rfl)
        rw [e2] at e1
        exact absurd (Option.some.inj e1).symm hij
  | lockRel i h =>
    constructor
    · intro j hj
      by_cases hij : j = i
      · subst hij
        simp only [Function.update_same] at hj
        exact absurd hj (by simp [holdsGate])
      · simp only [Function.update_noteq hij] at hj
        have e1 := hg j hj
        have e2 := hg i (by rw [h]; rfl)
        rw [e2] at e1
        exact absurd (Option.some.inj e1).symm hij
    · intro j hj
      by_cases hij : j = i
      · subst hij
        simp only [Function.update_same] at hj
        exact absurd hj (by simp)
      · simp only [Function.update_noteq hij] at hj
        exact hr j hj
  | unlockStep i h hw =>
    constructor
    · intro j hj
      by_cases hij : j = i
      · subst hij
        simp only [Function.update_same] at hj
        exact absurd hj (by simp [holdsGate])
      · simp only [Function.update_noteq hij] at hj
        exact hg j hj
    · intro j hj
      by_cases hij : j = i
      · subst hij
        simp only [Function.update_same] at hj
        exact absurd hj (by simp)
      · simp only [Function.update_noteq hij] at hj
        exact absurd (hr j hj) hw
  | allAcq i h hgate =>
    constructor
    · intro j hj
      by_cases hij : j = i
      · subst hij; rfl
      · simp only [Function.update_noteq hij] at hj
        have := hg j hj
        rw [hgate] at this
        exact absurd this (by simp)
    · intro j hj
      by_cases hij : j = i
      · subst hij
        simp only [Function.update_same] at hj
        exact absurd hj (by simp)
      · simp only [Function.update_noteq hij] at hj
        exact hr j hj
  | allWait i h hw =>
    constructor
    · intro j hj
      by_cases hij : j = i
      · subst hij
        exact hg j (by rw [h]; rfl)
      · simp only [Function.update_noteq hij] at hj
        exact hg j hj
    · intro j hj
      exact hw
  | allRel i h =>
    constructor
    · intro j hj
      by_cases hij : j = i
      · subst hij
        simp only [Function.update_same] at hj
        exact absurd hj (by simp [holdsGate])
      · simp only [Function.update_noteq hij] at hj
        have e1 := hg j hj
        have e2 := hg i (by rw [h]; rfl)
        rw [e2] at e1
        exact absurd (Option.some.inj e1).symm hij
    · intro j hj
      by_cases hij : j = i
      · subst hij
        simp only [Function.update_same] at hj
        exact absurd hj (by simp)
      · simp only [Function.update_noteq hij] at hj
        exact hr j hj

theorem nodeInv_reach (σ0 σ : NodeSt) (h0 : NInv σ0)
    (hr : Relation.ReflTransGen NStep σ0 σ) : NInv σ := by
  induction hr with
  | refl => exact h0
  | tail _ hstep ih => exact nodeInv_step _ _ hstep ih

theorem take_isPre (p : TPath) (k : Nat) : p.take k <+: p :=
  ⟨p.drop k, List.take_append_drop k p⟩

theorem take_ne_of_lt (p : TPath) (k : Nat) (hk : k < p.length) : p ≠ p.take k := by
  intro h
  have : (p.take k).length = k := by
    simp [List.length_take]; omega
  rw [← h] at this
  omega

theorem cInv_init (p q : TPath) : CInv p q cInit := by
  refine ⟨?_, rfl, rfl, ?_, ?_⟩
  · intro loc h
    simp [cInit] at h
  · intro k h
    simp only [cInit] at h
    cases h
    omega
  · intro k h
    simp only [cInit] at h
    cases h
    omega

theorem cInv_step (p q : TPath) (hp : ¬ p <+: q) (hq : ¬ q <+: p)
    (σ σ' : CState) (hs : CStep p q σ σ') (hi : CInv p q σ) : CInv p q σ' := by
  obtain ⟨hG, hwp, hwq, hA, hB⟩ := hi
  cases hs with
  | aDescend k ha hk hg =>
    refine ⟨?_, ?_, ?_, ?_, ?_⟩
    · intro loc hloc
      rcases hG loc hloc with ⟨h1, h2⟩ | h2
      · rw [ha] at h2; cases h2
      · exact Or.inr h2
    · have hne : p ≠ p.take k := take_ne_of_lt p k hk
      simp only [Function.update_noteq hne]
      exact hwp
    · have hne : q ≠ p.take k := by
        intro h
        exact hq (h ▸ take_isPre p k)
      simp only [Function.update_noteq hne]
      exact hwq
    · intro k2 hk2
      cases hk2
      omega
    · exact hB
  | aFinish ha hg hw =>
    refine ⟨?_, hwp, hwq, ?_, hB⟩
    · intro loc hloc
      by_cases hl : loc = p
      · exact Or.inl ⟨hl, rfl⟩
      · simp only [Function.update_noteq hl] at hloc
        rcases hG loc hloc with ⟨h1, _⟩ | h2
        · exact absurd h1 hl
        · exact Or.inr h2
    · intro k2 hk2
      cases hk2
  | bDescend k hb hk hg =>
    refine ⟨?_, ?_, ?_, ?_, ?_⟩
    · intro loc hloc
      rcases hG loc hloc with h2 | ⟨h1, h2⟩
      · exact Or.inl h2
      · rw [hb] at h2; cases h2
    · have hne : p ≠ q.take k := by
        intro h
        exact hp (h ▸ take_isPre q k)
      simp only [Function.update_noteq hne]
      exact hwp
    · have hne : q ≠ q.take k := take_ne_of_lt q k hk
      simp only [Function.update_noteq hne]
      exact hwq
    · exact hA
    · intro k2 hk2
      cases hk2
      omega
  | bFinish hb hg hw =>
    refine ⟨?_, hwp, hwq, hA, ?_⟩
    · intro loc hloc
      by_cases hl : loc = q
      · exact Or.inr ⟨hl, rfl⟩
      · simp only [Function.update_noteq hl] at hloc
        rcases hG loc hloc with h2 | ⟨h1, _⟩
        · exact Or.inl h2
        · exact absurd h1 hl
    · intro k2 hk2
      cases hk2

theorem cInv_reach (p q : TPath) (hp : ¬ p <+: q) (hq : ¬ q <+: p)
    (σ : CState) (hr : Relation.ReflTransGen (CStep p q) cInit σ) : CInv p q σ := by
  induction hr with
  | refl => exact cInv_init p q
  | tail _ hstep ih => exact cInv_step p q hp hq _ _ hstep ih

theorem cInv_enabled (p q : TPath) (hp : ¬ p <+: q) (hq : ¬ q <+: p)
    (σ : CState) (hi : CInv p q σ) : enabledA p σ ∧ enabledB q σ := by
  obtain ⟨hG, hwp, hwq, hA, hB⟩ := hi
  constructor
  · cases ha : σ.a with
    | fin => simp [enabledA, ha]
    | run k =>
      have hk := hA k ha
      simp only [enabledA, ha]
      rcases Nat.lt_or_ge k p.length with hlt | hge
      · refine Or.inl ⟨hlt, ?_⟩
        cases hgt : σ.st.gates (p.take k) with
        | false => rfl
        | true =>
          rcases hG _ hgt with ⟨h1, _⟩ | ⟨h1, _⟩
          · exact absurd h1.symm (take_ne_of_lt p k hlt)
          · exact absurd (h1 ▸ take_isPre p k) hq
      · have hke : k = p.length := by omega
        subst hke
        refine Or.inr ⟨rfl, ?_, hwp⟩
        cases hgt : σ.st.gates p with
        | false => rfl
        | true =>
          rcases hG _ hgt with ⟨_, h2⟩ | ⟨h1, _⟩
          · rw [ha] at h2; cases h2
          · exact absurd (h1 ▸ List.prefix_rfl) hp
  · cases hb : σ.b with
    | fin => simp [enabledB, hb]
    | run k =>
      have hk := hB k hb
      simp only [enabledB, hb]
      rcases Nat.lt_or_ge k q.length with hlt | hge
      · refine Or.inl ⟨hlt, ?_⟩
        cases hgt : σ.st.gates (q.take k) with
        | false => rfl
        | true =>
          rcases hG _ hgt with ⟨h1, _⟩ | ⟨h1, _⟩
          · exact absurd (h1 ▸ take_isPre q k) hp
          · exact absurd h1.symm (take_ne_of_lt q k hlt)
      · have hke : k = q.length := by omega
        subst hke
        refine Or.inr ⟨rfl, ?_, hwq⟩
        cases hgt : σ.st.gates q with
        | false => rfl
        | true =>
          rcases hG _ hgt with ⟨h1, _⟩ | ⟨_, h2⟩
          · exact absurd (h1 ▸ List.prefix_rfl) hq
          · rw [hb] at h2; cases h2

/-! The claim theorems. -/

/-- Claim C5: Sorter.Less computes a strict total order over paths that is
prefix-first lexicographic: Less(x, y) is true exactly when, at the first
index within the common length where the paths differ, x's segment is
string-less (Go byte-wise order, segLt) than y's, or when the paths agree on
the whole common length and x is strictly shorter; for equal paths Less is
false in both directions, and the order is strict and total.  Determinism
across callers is immediate: sorterLess is a pure function of the two paths. -/
theorem c5_sorter_less_strict_total_order (x y : TPath) :
    (sorterLess x y = true ↔
      ((∃ k, k < min x.length y.length ∧
          (∀ j, j < k → x.getD j "" = y.getD j "") ∧
          segLt (x.getD k "") (y.getD k "") = true) ∨
        (x.length < y.length ∧ ∀ j, j < x.length → x.getD j "" = y.getD j "")))
    ∧ (x = y → sorterLess x y = false)
    ∧ (sorterLess x y = true → sorterLess y x = false)
    ∧ (x ≠ y → sorterLess x y = true ∨ sorterLess y x = true) := by
  refine ⟨?_, ?_, sorterLess_asym x y, ?_⟩
  · rw [sorterLess_eq_lexGen]
    exact lexGen_iff_firstDiff segLt "" segLt_irr segLt_anti x y
  · intro h
    subst h
    exact sorterLess_irr x
  · intro h
    cases h1 : sorterLess x y with
    | true => exact Or.inl rfl
    | false =>
      cases h2 : sorterLess y x with
      | true => exact Or.inr rfl
      | false => exact absurd (sorterLess_anti x y h1 h2) h

/-- Witness for C5 at concrete paths. -/
theorem c5_sorter_less_witness : sorterLess ["a"] ["a"] = false :=
  (c5_sorter_less_strict_total_order ["a"] ["a"]).2.1 rfl

/-- Claim C10: LockMany and UnlockMany sort the caller-supplied argument
slice in place.  The first component of each operation models the contents
of the caller's slice after the call (Go's sort.SliceStable / sort.Strings
permute the variadic backing array, a caller-visible mutation): it is a
permutation of the input, sorted by the library's order (Sorter.Less for
TreeLock, string order for SimpleTreeLock). -/
theorem c10_many_sorts_caller_slice (t : TL) (st : STL) (vals : List TPath)
    (svals : List Seg) :
    ((treeLockMany t vals).1.Perm vals
      ∧ List.Pairwise (fun a b => sorterLess b a = false) (treeLockMany t vals).1)
    ∧ ((treeUnlockMany t vals).1.Perm vals
      ∧ List.Pairwise (fun a b => sorterLess b a = false) (treeUnlockMany t vals).1)
    ∧ ((simpleLockMany st svals).1.Perm svals
      ∧ List.Pairwise (fun a b => segLt b a = false) (simpleLockMany st svals).1)
    ∧ ((simpleUnlockMany st svals).1.Perm svals
      ∧ List.Pairwise (fun a b => segLt b a = false) (simpleUnlockMany st svals).1) := by
  refine ⟨⟨?_, ?_⟩, ⟨?_, ?_⟩, ⟨?_, ?_⟩, ⟨?_, ?_⟩⟩
  · exact sortBy_perm sorterLess vals
  · exact sortBy_pairwise sorterLess sorterLess_asym sorterLess_anti sorterLess_trans vals
  · exact sortBy_perm sorterLess vals
  · exact sortBy_pairwise sorterLess sorterLess_asym sorterLess_anti sorterLess_trans vals
  · exact sortBy_perm segLt svals
  · exact sortBy_pairwise segLt segLt_asym segLt_anti segLt_trans svals
  · exact sortBy_perm segLt svals
  · exact sortBy_pairwise segLt segLt_asym segLt_anti segLt_trans svals

/-- Claim C7: for every path p, a completed Lock(p) followed by Unlock(p)
(no interference, sequential semantics) returns normally and leaves every
node's active-session counter and every gate's held/free state identical to
before the pair (nodes created by the Lock persist but are idle, which is
exactly the observation of an absent node). -/
theorem c7_lock_unlock_roundtrip (p : TPath) (t t1 : TL) (e1 : List Ev)
    (h : treeLock [] t p = .ok (t1, e1)) :
    ∃ t2 e2, treeUnlock [] t1 p = .ok (t2, e2) ∧
      ∀ q, countAt t2 q = countAt t q ∧ gateAt t2 q = gateAt t q :=
  treeRoundTrip p [] t t1 e1 h

/-- Witness for C7: Lock(["a"]) on a fresh tree, then Unlock(["a"]);
counter and gate observations at [] and ["a"] are restored. -/
theorem c7_lock_unlock_roundtrip_witness :
    (treeUnlock [] (.mk false 1 [("a", .mk true 0 [] "a" none 1)] "" none 0)
      ["a"]).isOk = true
    ∧ countAt (stOf (treeUnlock []
        (.mk false 1 [("a", .mk true 0 [] "a" none 1)] "" none 0) ["a"]) freshTL) []
      = countAt freshTL []
    ∧ gateAt (stOf (treeUnlock []
        (.mk false 1 [("a", .mk true 0 [] "a" none 1)] "" none 0) ["a"]) freshTL) ["a"]
      = gateAt freshTL ["a"] := by
  obtain ⟨t2, e2, hu, hobs⟩ := c7_lock_unlock_roundtrip ["a"] freshTL
    (.mk false 1 [("a", .mk true 0 [] "a" none 1)] "" none 0)
    [.acqGate [], .acqGuard [], .create [] "a" [""], .relGuard [],
     .add [], .relGate [], .acqGate ["a"], .waitZero ["a"]] rfl
  rw [hu]
  exact ⟨rfl, (hobs []).1, (hobs ["a"]).2⟩

/-- Claim C3: a node's gate is held in full mode only when the node's
active-session counter is zero.  In the interleaving model of one node's
protocol, in every state reachable from a well-formed initial state, any
thread that has passed totalwg.Wait() inside LockAll and has not yet run
UnlockAll (phase allReady) observes wg = 0: the counter has drained before
LockAll returns and stays zero while the gate is held in full mode, because
every new Lock must acquire the same gate before incrementing. -/
theorem c3_full_gate_only_when_quiescent (σ0 σ : NodeSt) (h0 : NInit σ0)
    (hr : Relation.ReflTransGen NStep σ0 σ) (i : Nat)
    (hi : σ.ths i = .allReady) : σ.wg = 0 :=
  (nodeInv_reach σ0 σ (nodeInv_init σ0 h0) hr).2 i hi

/-- Witness for C3: a two-step execution in which thread 0 performs LockAll
(acquires the gate, then passes Wait) reaches an allReady state with zero
counter. -/
theorem c3_full_gate_only_when_quiescent_witness :
    (⟨some 0, 0, Function.update (Function.update (fun _ => Ph.allStart) 0
        .allHasGate) 0 .allReady⟩ : NodeSt).wg = 0 :=
  c3_full_gate_only_when_quiescent ⟨none, 0, fun _ => Ph.allStart⟩ _
    ⟨rfl, fun _ => rfl⟩
    (Relation.ReflTransGen.head
      (NStep.allAcq ⟨none, 0, fun _ => Ph.allStart⟩ 0 rfl rfl)
      (Relation.ReflTransGen.head
        (NStep.allWait ⟨some 0, 0, Function.update (fun _ => Ph.allStart) 0
            .allHasGate⟩ 0 (by simp) rfl)
        Relation.ReflTransGen.refl))
    0 (by simp)

/-- Claim C9: for paths p and q where neither is a prefix of the other, two
concurrent Lock(p) and Lock(q) calls never block each other: in every state
reachable from the quiescent initial state of the two-thread interleaving
model, each unfinished call's next step is enabled (no gate it must pass is
held and the counter its terminal LockAll waits on is zero). -/
theorem c9_nonoverlapping_locks_never_block (p q : TPath) (hp : ¬ p <+: q)
    (hq : ¬ q <+: p) (σ : CState)
    (hr : Relation.ReflTransGen (CStep p q) cInit σ) :
    enabledA p σ ∧ enabledB q σ :=
  cInv_enabled p q hp hq σ (cInv_reach p q hp hq σ hr)

/-- Witness for C9 at p = ["a"], q = ["b"] in the initial state. -/
theorem c9_nonoverlapping_locks_never_block_witness :
    enabledA ["a"] cInit ∧ enabledB ["b"] cInit :=
  c9_nonoverlapping_locks_never_block ["a"] ["b"] (by decide) (by decide)
    cInit Relation.ReflTransGen.refl

/-- Claim C6: unlocking a path that was never locked, or unlocking the same
path twice without an intervening Lock, is fatal for both TreeLock and
SimpleTreeLock: the call panics (WaitGroup.Done on a zero counter, unlock of
an unlocked mutex, or nil dereference) instead of returning normally. -/
theorem c6_unmatched_unlock_fatal (p : TPath) (v : Seg) :
    treeUnlock [] freshTL p = .panicked
    ∧ (∀ t1 e1 t2 e2, treeLock [] freshTL p = .ok (t1, e1) →
        treeUnlock [] t1 p = .ok (t2, e2) → treeUnlock [] t2 p = .panicked)
    ∧ simpleUnlock freshSTL v = .panicked
    ∧ (∀ s1 s2, simpleLock freshSTL v = .ok s1 → simpleUnlock s1 v = .ok s2 →
        simpleUnlock s2 v = .panicked) := by
  refine ⟨?_, ?_, rfl, ?_⟩
  · cases p with
    | nil => rfl
    | cons s r => rfl
  · intro t1 e1 t2 e2 h1 h2
    obtain ⟨t2', e2', hu, hobs⟩ := treeRoundTrip p [] freshTL t1 e1 h1
    rw [hu] at h2
    obtain ⟨ht, he⟩ := Prod.mk.injEq .. ▸ Res.ok.inj h2
    subst ht
    cases t2' with
    | mk g w lks vv pr dd =>
      have hw : w = 0 := by
        have := (hobs []).1
        rw [countAt_nil] at this
        exact this
      have hg : g = false := by
        have := (hobs []).2
        rw [gateAt_nil] at this
        exact this
      subst hw
      subst hg
      cases p with
      | nil => rfl
      | cons s r => rfl
  · intro s1 s2 h1 h2
    have hl : simpleLock freshSTL v = .ok ⟨false, 1, [(v, true)]⟩ := by
      simp [simpleLock, freshSTL, ensureB, lookupB, setB]
    rw [hl] at h1
    have hs1 : s1 = ⟨false, 1, [(v, true)]⟩ := (Res.ok.inj h1).symm
    subst hs1
    have hu : simpleUnlock ⟨false, 1, [(v, true)]⟩ v = .ok ⟨false, 0, [(v, false)]⟩ := by
      simp [simpleUnlock, lookupB, setB]
    rw [hu] at h2
    have hs2 : s2 = ⟨false, 0, [(v, false)]⟩ := (Res.ok.inj h2).symm
    subst hs2
    rfl

/-- Witness for C6 at p = ["a"], v = "a": Unlock on a fresh structure panics,
and the second Unlock after a Lock/Unlock round trip panics. -/
theorem c6_unmatched_unlock_fatal_witness :
    treeUnlock [] freshTL ["a"] = .panicked
    ∧ treeUnlock [] (.mk false 0 [("a", .mk false 0 [] "a" none 1)] "" none 0)
        ["a"] = .panicked
    ∧ simpleUnlock freshSTL "a" = .panicked
    ∧ simpleUnlock ⟨false, 0, [("a", false)]⟩ "a" = .panicked := by
  refine ⟨(c6_unmatched_unlock_fatal ["a"] "a").1, ?_,
    (c6_unmatched_unlock_fatal ["a"] "a").2.2.1, ?_⟩
  · exact (c6_unmatched_unlock_fatal ["a"] "a").2.1
      (.mk false 1 [("a", .mk true 0 [] "a" none 1)] "" none 0)
      [.acqGate [], .acqGuard [], .create [] "a" [""], .relGuard [],
       .add [], .relGate [], .acqGate ["a"], .waitZero ["a"]]
      (.mk false 0 [("a", .mk false 0 [] "a" none 1)] "" none 0)
      [.doneWg [], .relGate ["a"]] rfl rfl
  · exact (c6_unmatched_unlock_fatal ["a"] "a").2.2.2
      ⟨false, 1, [("a", true)]⟩ ⟨false, 0, [("a", false)]⟩ rfl rfl

/-- Claim C1 evaluated at the failing input.  The TreeLock side behaves as
claimed: after LockMany on the slice [["b"], ["a"]] (sorted in place to
[["a"], ["b"]]), UnlockMany releases in exact reverse of the sorted order,
each path exactly once — the run returns normally and its action trace is
Done at the root then gate release at ["b"], then Done and gate release at
["a"].  The SimpleTreeLock side refutes the claim: after LockMany("a"),
UnlockMany("a") panics, because the source's UnlockMany contains a second
forward unlock loop after totalLock.Unlock() that releases every per-segment
mutex a second time. -/
theorem c1_unlock_many_reverse_once_eval :
    (treeUnlockMany (stOf (treeLockMany freshTL [["b"], ["a"]]).2 freshTL)
        [["b"], ["a"]]).2
      = .ok (.mk false 0 [("a", .mk false 0 [] "a" none 1),
              ("b", .mk false 0 [] "b" none 1)] "" none 0,
          [.doneWg [], .relGate ["b"], .doneWg [], .relGate ["a"]])
    ∧ (simpleLockMany freshSTL ["a"]).2 = .ok ⟨false, 1, [("a", true)]⟩
    ∧ (simpleUnlockMany ⟨false, 1, [("a", true)]⟩ ["a"]).2 = .panicked :=
  ⟨rfl, rfl, rfl⟩

/-- Claim C2 evaluated at the failing input.  Locking ["a", "b"] on a fresh
NewTreeLock() creates two nodes; the argument passed to MutexGenerator and
WaitGroupGenerator is [""] for the node at ["a"] and ["", ""] for the node at
["a", "b"] — a slice of depth-many empty strings, not the node's full path,
because newTreeLock stores nil as every created node's parent field and its
path-building loop starts at the parent, never writing the node's own
segment. -/
theorem c2_generator_args_eval :
    createArgs (evsOf (treeLock [] freshTL ["a", "b"])) = [[""], ["", ""]]
    ∧ ([""] : TPath) ≠ ["a"]
    ∧ (["", ""] : TPath) ≠ ["a", "b"] :=
  ⟨rfl, by decide, by decide⟩

/-- Claim C8 evaluated at the failing input.  On the depth-1 path multiset
{"a", "b"}: TreeLock's LockMany([["b"], ["a"]]) followed by UnlockMany
returns normally, while SimpleTreeLock's LockMany("b", "a") reaches the
corresponding state (counter 2, both segment mutexes held) but
UnlockMany("b", "a") panics — SimpleTreeLock.UnlockMany releases every mutex
twice, so the two structures are not behaviorally equivalent at depth 1. -/
theorem c8_depth1_divergence_eval :
    (treeLockMany freshTL [["b"], ["a"]]).2.isOk = true
    ∧ (treeUnlockMany (stOf (treeLockMany freshTL [["b"], ["a"]]).2 freshTL)
        [["b"], ["a"]]).2.isOk = true
    ∧ (simpleLockMany freshSTL ["b", "a"]).2
        = .ok ⟨false, 2, [("a", true), ("b", true)]⟩
    ∧ (simpleUnlockMany ⟨false, 2, [("a", true), ("b", true)]⟩ ["b", "a"]).2
        = .panicked :=
  ⟨rfl, rfl, rfl, rfl⟩

/-- Counterexample to claim C4 as stated.  The claim says Lock increments the
active-session counter "while still inside that guard" (the childrenGuard,
locksLock) and only then releases the guard.  In the executed action trace of
Lock(["a"]) on a fresh tree, the totalwg.Add(1) action (add) occurs at index
4, strictly after the locksLock release (relGuard, index 3): the increment
happens after the childrenGuard is released, not inside it. -/
theorem c4_increment_inside_guard_counterexample :
    evsOf (treeLock [] freshTL ["a"])
      = [.acqGate [], .acqGuard [], .create [] "a" [""], .relGuard [],
         .add [], .relGate [], .acqGate ["a"], .waitZero ["a"]]
    ∧ ¬ (List.indexOf (Ev.add []) (evsOf (treeLock [] freshTL ["a"]))
          < List.indexOf (Ev.relGuard []) (evsOf (treeLock [] freshTL ["a"]))) :=
  ⟨rfl, by decide⟩

/-- Claim C4 as amended: for every non-empty path, a completed Lock performs
exactly these steps at each level — it acquires the node's gate (totalLock),
then under the childrenGuard (locksLock) gets or creates the child for the
first segment, reusing an existing child rather than replacing it; it
releases the childrenGuard, and only then increments the node's
active-session counter, still inside the gate critical section (so the
increment is visible before any pending LockAll, which must acquire the same
gate, can proceed); it releases the gate and recursively locks the remaining
path in the child. -/
theorem c4_lock_level_behavior (loc : TPath) (g : Bool) (wg : Nat)
    (lks : List (Seg × TL)) (v : Seg) (pr : Option TL) (d : Nat) (s : Seg)
    (rest : TPath) (t2 : TL) (evs : List Ev)
    (h : treeLock loc (.mk g wg lks v pr d) (s :: rest) = .ok (t2, evs)) :
    g = false
    ∧ countAt t2 [] = wg + 1
    ∧ ((∃ c c2 tail, lookupChild s lks = some c
          ∧ treeLock (loc ++ [s]) c rest = .ok (c2, tail)
          ∧ t2 = .mk false (wg + 1) (setChild s c2 lks) v pr d
          ∧ evs = [.acqGate loc, .acqGuard loc, .reuse loc s, .relGuard loc,
              .add loc, .relGate loc] ++ tail)
      ∨ (∃ c2 tail, lookupChild s lks = none
          ∧ treeLock (loc ++ [s]) (.mk false 0 [] s none (d + 1)) rest
              = .ok (c2, tail)
          ∧ t2 = .mk false (wg + 1) (setChild s c2 lks) v pr d
          ∧ evs = [.acqGate loc, .acqGuard loc,
              .create loc s (newTreeLock s (.mk false wg lks v pr d) (d + 1)).2,
              .relGuard loc, .add loc, .relGate loc] ++ tail)) := by
  cases g with
  | true => simp [treeLock] at h
  | false =>
    simp only [treeLock, Bool.false_eq_true, if_false, reduceIte] at h
    cases hc : lookupChild s lks with
    | some c =>
      rw [hc] at h
      simp only at h
      cases hrec : treeLock (loc ++ [s]) c rest with
      | ok pair =>
        obtain ⟨c2, tail⟩ := pair
        rw [hrec] at h
        simp only at h
        obtain ⟨h1, h2⟩ := Prod.mk.injEq .. ▸ Res.ok.inj h
        subst h1
        subst h2
        refine ⟨rfl, by rw [countAt_nil], Or.inl ⟨c, c2, tail, rfl, hrec, rfl, rfl⟩⟩
      | panicked => rw [hrec] at h; simp at h
      | stuck => rw [hrec] at h; simp at h
    | none =>
      rw [hc] at h
      simp only [newTreeLock_fst] at h
      cases hrec : treeLock (loc ++ [s]) (.mk false 0 [] s none (d + 1)) rest with
      | ok pair =>
        obtain ⟨c2, tail⟩ := pair
        rw [hrec] at h
        simp only at h
        obtain ⟨h1, h2⟩ := Prod.mk.injEq .. ▸ Res.ok.inj h
        subst h1
        subst h2
        refine ⟨rfl, by rw [countAt_nil], Or.inr ⟨c2, tail, rfl, rfl, rfl, rfl⟩⟩
      | panicked => rw [hrec] at h; simp at h
      | stuck => rw [hrec] at h; simp at h

/-- Witness for the amended C4: Lock(["a"]) on a tree whose child "a"
already exists reuses it and increments the root counter from 0 to 1. -/
theorem c4_lock_level_behavior_witness :
    countAt (.mk false 1 [("a", .mk true 0 [] "a" none 1)] "" none 0 : TL) []
      = 0 + 1 :=
  (c4_lock_level_behavior [] false 0 [("a", .mk false 0 [] "a" none 1)] "" none 0
    "a" [] (.mk false 1 [("a", .mk true 0 [] "a" none 1)] "" none 0)
    [.acqGate [], .acqGuard [], .reuse [] "a", .relGuard [], .add [], .relGate [],
     .acqGate ["a"], .waitZero ["a"]] rfl).2.1
